import Mathlib

/-!
Verification of the `curies` converter (CURIE <-> URI resolution).

Shallow embedding of `src/lib.rs`:

* Rust `String` / `&str` values are modelled as `Str := List Char`.
* `HashMap<String, Arc<Record>>` is modelled as an association list
  `List (Str × Record)` where `insert` prepends and `lookup` takes the
  first binding with the given key; this realises the hash map's
  "insert overwrites" semantics (the newest binding wins).  `Arc`
  sharing is immaterial: records are immutable values.
* `HashSet<String>` synonym sets are modelled as `List Str`; the source
  only iterates them (in arbitrary order), so a list fixes one order.
* The `trie_rs` trie is modelled by the list of strings pushed into its
  builder (`Converter.trie`).  `common_prefix_search uri` returns all
  stored strings that are prefixes of `uri`, in trie order; since all
  results are prefixes of the same query they are totally ordered by
  the prefix relation, so trie order is increasing length and the
  source's `.last()` is the unique longest match.  We model the
  selection directly with `List.argmax List.length`.
* The byte-level behaviour of the trie (`Vec<u8>` entries and the
  `std::str::from_utf8` decoding step of `find_by_uri`) is modelled
  separately in `ConverterB`, with an executable UTF-8 encoder and a
  decoder performing exactly the validations of `str::from_utf8`.
-/

abbrev Str : Type := List Char

/-- A CURIE record, from `struct Record` in `src/lib.rs`.  Field names:
`pfx` models `prefix` (a Lean keyword), `uriPfx` models `uri_prefix`,
`pfxSynonyms` models `prefix_synonyms`, `uriPfxSynonyms` models
`uri_prefix_synonyms`. -/
structure Record where
  pfx : Str
  uriPfx : Str
  pfxSynonyms : List Str
  uriPfxSynonyms : List Str
deriving DecidableEq

/-- Modelled from the spec: `DuplicateRecordError` lives in the crate's
`error` module, whose file is not part of the sources at hand; the spec
says the error "carries the offending key", so it is a single-field
wrapper around the colliding key string. -/
structure DuplicateRecordError where
  key : Str
deriving DecidableEq

/-- Lookup in an association list: first binding with the given key wins
(models `HashMap::get`, given that `insertM` prepends). -/
def lookupM : List (Str × Record) → Str → Option Record
  | [], _ => none
  | (k', v) :: rest, k => if k' = k then some v else lookupM rest k

/-- Insert into an association list (models `HashMap::insert`: the new
binding shadows any older binding for the same key). -/
def insertM (m : List (Str × Record)) (k : Str) (v : Record) : List (Str × Record) :=
  (k, v) :: m

/-- Key membership (models `HashMap::contains_key`). -/
def containsKey (m : List (Str × Record)) (k : Str) : Bool :=
  (lookupM m k).isSome

/-- The converter state, from `struct Converter` in `src/lib.rs`:
`prefixMap` models `prefix_map`, `uriMap` models `uri_map`, and `trie`
models the accumulated contents of `trie_builder` (the built `trie`
always equals the builder's contents, since `add_record` rebuilds it
after every push). -/
structure Converter where
  prefixMap : List (Str × Record)
  uriMap : List (Str × Record)
  trie : List Str
deriving DecidableEq

/-- `Converter::new()`: empty maps, empty trie. -/
def newConverter : Converter := ⟨[], [], []⟩

/-- `Converter::add_record`.  The Rust method mutates `&mut self` and
returns `Result<(), DuplicateRecordError>`; we return the new state
paired with the optional error.  On the error path the source returns
before any mutation, hence the input state is returned unchanged. -/
def addRecord (c : Converter) (r : Record) : Converter × Option DuplicateRecordError :=
  if containsKey c.prefixMap r.pfx then
    (c, some ⟨r.pfx⟩)
  else if containsKey c.uriMap r.uriPfx then
    (c, some ⟨r.uriPfx⟩)
  else
    let pm := r.pfxSynonyms.foldl (fun m s => insertM m s r) (insertM c.prefixMap r.pfx r)
    let um := r.uriPfxSynonyms.foldl (fun m s => insertM m s r) (insertM c.uriMap r.uriPfx r)
    let tr := r.uriPfxSynonyms.foldl (fun t s => t ++ [s]) (c.trie ++ [r.uriPfx])
    (⟨pm, um, tr⟩, none)

/-- `Converter::find_by_prefix`: exact lookup in the prefix map. -/
def findByPfx (c : Converter) (p : Str) : Option Record :=
  lookupM c.prefixMap p

/-- `Converter::find_by_uri_prefix`: exact lookup in the URI map. -/
def findByUriPfx (c : Converter) (p : Str) : Option Record :=
  lookupM c.uriMap p

/-- The trie's `common_prefix_search`: all stored strings that are
prefixes of the query. -/
def commonPrefixMatches (trie : List Str) (u : Str) : List Str :=
  trie.filter (fun p => p.isPrefixOf u)

/-- `Converter::find_by_uri`: take the longest stored string that is a
prefix of `uri` (the `.last()` of `common_prefix_search`, see the module
comment) and resolve it through the URI map.  The `from_utf8` decoding
step of the source is the identity here because trie entries are
modelled as the strings they were pushed from; `ConverterB.findByUri`
below models it at the byte level. -/
def findByUri (c : Converter) (u : Str) : Option Record :=
  match List.argmax List.length (commonPrefixMatches c.trie u) with
  | none => none
  | some p => findByUriPfx c p

/-- `str::strip_prefix`: remove a leading occurrence, or `none`. -/
def stripPfx (p s : Str) : Option Str :=
  if p.isPrefixOf s then some (s.drop p.length) else none

/-- `Converter::compress`: resolve the URI, then strip the canonical URI
prefix, falling back to the URI-prefix synonyms, and format the CURIE
with the canonical prefix. -/
def compress (c : Converter) (u : Str) : Option Str :=
  match findByUri c u with
  | none => none
  | some r =>
    match stripPfx r.uriPfx u with
    | some id => some (r.pfx ++ ':' :: id)
    | none =>
      match r.uriPfxSynonyms.findSome? (fun s => stripPfx s u) with
      | some id => some (r.pfx ++ ':' :: id)
      | none => none

/-- Rust `str::split(':')` on a character list: splits at every colon,
yielding (number of colons + 1) parts. -/
def splitColon : Str → List Str
  | [] => [[]]
  | ch :: rest =>
    if ch = ':' then [] :: splitColon rest
    else
      match splitColon rest with
      | [] => [[ch]]
      | p :: ps => (ch :: p) :: ps

/-- `Converter::expand`: split on `:`; exactly two parts are required;
resolve the first through the prefix map and append the second to the
record's canonical URI prefix. -/
def expand (c : Converter) (curie : Str) : Option Str :=
  match splitColon curie with
  | [p, id] =>
    match findByPfx c p with
    | none => none
    | some r => some (r.uriPfx ++ id)
  | _ => none

/-- Replay a list of `add_record` calls from a given state (failed calls
leave the state unchanged, as in the source). -/
def runFrom (c : Converter) : List Record → Converter
  | [] => c
  | r :: rs => runFrom (addRecord c r).1 rs

/-- Replay a list of `add_record` calls from `Converter::new()`. -/
def runOps (ops : List Record) : Converter := runFrom newConverter ops

/-- All URI-prefix strings (canonical and synonyms) registered by the
successful `add_record` calls of a replay starting at `c`. -/
def regUriFrom (c : Converter) : List Record → List Str
  | [] => []
  | r :: rs =>
    match addRecord c r with
    | (c2, none) => (r.uriPfx :: r.uriPfxSynonyms) ++ regUriFrom c2 rs
    | (_, some _) => regUriFrom c rs

/-- URI-prefix strings registered by a replay from the empty converter. -/
def regUri (ops : List Record) : List Str := regUriFrom newConverter ops

/-- UTF-8 encoding of one Unicode scalar value (bytes as `Nat`). -/
def utf8EncodeCp (n : Nat) : List Nat :=
  if n < 128 then [n]
  else if n < 2048 then [192 + n / 64, 128 + n % 64]
  else if n < 65536 then [224 + n / 4096, 128 + n / 64 % 64, 128 + n % 64]
  else [240 + n / 262144, 128 + n / 4096 % 64, 128 + n / 64 % 64, 128 + n % 64]

/-- UTF-8 encoding of a string, byte by byte; this is what the trie in
the source stores for every pushed `&str`. -/
def encodeStr : Str → List Nat
  | [] => []
  | ch :: rest => utf8EncodeCp ch.toNat ++ encodeStr rest

/-- UTF-8 continuation byte test (`0x80..=0xBF`). -/
def contB (b : Nat) : Prop := 128 ≤ b ∧ b < 192

instance (b : Nat) : Decidable (contB b) := by
  unfold contB; infer_instance

/-- Decode one UTF-8 scalar from the front of a byte list, performing
exactly the validations of Rust `str::from_utf8` (rejecting stray
continuation bytes, overlong forms, surrogates and values above
`0x10FFFF`).  Returns the scalar value and the width consumed. -/
def utf8DecodeChar : List Nat → Option (Nat × Nat)
  | [] => none
  | b0 :: rest =>
    if b0 < 128 then some (b0, 1)
    else if b0 < 194 then none
    else if b0 < 224 then
      match rest with
      | [] => none
      | b1 :: _ =>
        if contB b1 then some ((b0 - 192) * 64 + (b1 - 128), 2) else none
    else if b0 < 240 then
      match rest with
      | b1 :: b2 :: _ =>
        if contB b1 ∧ contB b2 ∧ (b0 = 224 → 160 ≤ b1) ∧ (b0 = 237 → b1 < 160) then
          some ((b0 - 224) * 4096 + (b1 - 128) * 64 + (b2 - 128), 3)
        else none
      | _ => none
    else if b0 < 245 then
      match rest with
      | b1 :: b2 :: b3 :: _ =>
        if contB b1 ∧ contB b2 ∧ contB b3 ∧ (b0 = 240 → 144 ≤ b1) ∧ (b0 = 244 → b1 < 144) then
          some ((b0 - 240) * 262144 + (b1 - 128) * 4096 + (b2 - 128) * 64 + (b3 - 128), 4)
        else none
      | _ => none
    else none

/-- Decode a whole byte list, fuelled by its length (each step consumes
at least one byte). -/
def utf8DecodeList : Nat → List Nat → Option Str
  | _, [] => some []
  | 0, _ :: _ => none
  | fuel + 1, b :: bs =>
    match utf8DecodeChar (b :: bs) with
    | none => none
    | some (n, w) =>
      match utf8DecodeList fuel ((b :: bs).drop w) with
      | none => none
      | some cs => some (Char.ofNat n :: cs)

/-- Full-list UTF-8 decoding, the model of `std::str::from_utf8`. -/
def utf8Decode (l : List Nat) : Option Str :=
  utf8DecodeList l.length l

/-- Byte-level converter: identical to `Converter` except that the trie
holds the raw byte strings pushed by `TrieBuilder::push`, as in the
source. -/
structure ConverterB where
  prefixMap : List (Str × Record)
  uriMap : List (Str × Record)
  trieB : List (List Nat)
deriving DecidableEq

/-- Byte-level `Converter::new()`. -/
def newConverterB : ConverterB := ⟨[], [], []⟩

/-- Byte-level `Converter::add_record`: same checks and map updates as
`addRecord`, but the trie receives the UTF-8 bytes of each pushed
string. -/
def addRecordB (c : ConverterB) (r : Record) : ConverterB × Option DuplicateRecordError :=
  if containsKey c.prefixMap r.pfx then
    (c, some ⟨r.pfx⟩)
  else if containsKey c.uriMap r.uriPfx then
    (c, some ⟨r.uriPfx⟩)
  else
    let pm := r.pfxSynonyms.foldl (fun m s => insertM m s r) (insertM c.prefixMap r.pfx r)
    let um := r.uriPfxSynonyms.foldl (fun m s => insertM m s r) (insertM c.uriMap r.uriPfx r)
    let tr := r.uriPfxSynonyms.foldl (fun t s => t ++ [encodeStr s])
      (c.trieB ++ [encodeStr r.uriPfx])
    (⟨pm, um, tr⟩, none)

/-- Byte-level `Converter::find_by_uri`: search the byte trie with the
query's UTF-8 bytes, take the longest match, decode it with
`from_utf8` — a failed decode yields `None` — and resolve the decoded
string through the URI map. -/
def findByUriB (c : ConverterB) (u : Str) : Option Record :=
  match List.argmax List.length (c.trieB.filter (fun bs => bs.isPrefixOf (encodeStr u))) with
  | none => none
  | some bs =>
    match utf8Decode bs with
    | none => none
    | some p => lookupM c.uriMap p

/-- Replay byte-level `add_record` calls. -/
def runFromB (c : ConverterB) : List Record → ConverterB
  | [] => c
  | r :: rs => runFromB (addRecordB c r).1 rs

/-- Replay byte-level `add_record` calls from `Converter::new()`. -/
def runOpsB (ops : List Record) : ConverterB := runFromB newConverterB ops

/-- Example record mirroring the `obo` record of the crate's test, with
short strings: canonical prefix `o`, canonical URI prefix `O`. -/
def recObo : Record := ⟨['o'], ['O'], [], []⟩

/-- Example record mirroring the `doid` record of the crate's test, with
short strings: canonical prefix `d`, canonical URI prefix `OD` (a
strict extension of `recObo`'s `O`), prefix synonym `D`, URI-prefix
synonym `S`. -/
def recDoid : Record := ⟨['d'], ['O', 'D'], [['D']], [['S']]⟩

/-- Example converter holding `recObo` and `recDoid`. -/
def convEx : Converter := runOps [recObo, recDoid]

/-- Well-formedness of an exact-match index: every binding's key is the
selected canonical string of its record or one of the record's
synonyms.  Instantiated with `(Record.pfx, Record.pfxSynonyms)` for the
prefix map and `(Record.uriPfx, Record.uriPfxSynonyms)` for the URI
map. -/
def MapOk (sel : Record → Str) (syn : Record → List Str) (m : List (Str × Record)) : Prop :=
  ∀ kv ∈ m, kv.1 = sel kv.2 ∨ kv.1 ∈ syn kv.2

/-- Every trie entry is a key of the URI map. -/
def TrieKeysOk (c : Converter) : Prop :=
  ∀ p ∈ c.trie, containsKey c.uriMap p = true

section MapLemmas

theorem lookupM_insertM_self (m : List (Str × Record)) (k : Str) (v : Record) :
    lookupM (insertM m k v) k = some v := by
  simp [lookupM, insertM]

theorem lookupM_insertM_ne (m : List (Str × Record)) (k k' : Str) (v : Record)
    (h : k' ≠ k) : lookupM (insertM m k v) k' = lookupM m k' := by
  simp only [insertM, lookupM]
  rw [if_neg (fun hh => h hh.symm)]

theorem lookupM_mem {m : List (Str × Record)} {k : Str} {r : Record}
    (h : lookupM m k = some r) : (k, r) ∈ m := by
  induction m with
  | nil => simp [lookupM] at h
  | cons kv rest ih =>
    rcases kv with ⟨k1, v1⟩
    simp only [lookupM] at h
    by_cases hk : k1 = k
    · rw [if_pos hk] at h
      injection h with hv
      subst hk
      subst hv
      exact List.mem_cons_self _ _
    · rw [if_neg hk] at h
      exact List.mem_cons_of_mem _ (ih h)

theorem lookupM_foldl_insert_mem {l : List Str} {s : Str} (r : Record)
    (m : List (Str × Record)) (hs : s ∈ l) :
    lookupM (l.foldl (fun m' k => insertM m' k r) m) s = some r := by
  induction l generalizing m with
  | nil => simp at hs
  | cons a t ih =>
    simp only [List.foldl_cons]
    by_cases hst : s ∈ t
    · exact ih _ hst
    · have hsa : s = a := by
        rcases List.mem_cons.mp hs with h | h
        · exact h
        · exact absurd h hst
      subst hsa
      have aux : ∀ (l' : List Str) (m' : List (Str × Record)), s ∉ l' →
          lookupM (l'.foldl (fun m'' k => insertM m'' k r) m') s = lookupM m' s := by
        intro l'
        induction l' with
        | nil => intro m' _; rfl
        | cons b t' ih' =>
          intro m' hnot
          simp only [List.foldl_cons]
          rw [ih' _ (fun hmem => hnot (List.mem_cons_of_mem _ hmem))]
          exact lookupM_insertM_ne _ _ _ _ (fun he => hnot (he ▸ List.mem_cons_self _ _))
      rw [aux t _ hst, lookupM_insertM_self]

theorem lookupM_foldl_insert_not_mem {l : List Str} {s : Str} (r : Record)
    (m : List (Str × Record)) (hs : s ∉ l) :
    lookupM (l.foldl (fun m' k => insertM m' k r) m) s = lookupM m s := by
  induction l generalizing m with
  | nil => rfl
  | cons a t ih =>
    simp only [List.foldl_cons]
    rw [ih _ (fun hmem => hs (List.mem_cons_of_mem _ hmem))]
    exact lookupM_insertM_ne _ _ _ _ (fun he => hs (he ▸ List.mem_cons_self _ _))

theorem containsKey_insertM (m : List (Str × Record)) (k k' : Str) (v : Record)
    (h : containsKey m k = true) : containsKey (insertM m k' v) k = true := by
  by_cases he : k = k'
  · subst he
    simp [containsKey, lookupM_insertM_self]
  · rw [containsKey, lookupM_insertM_ne _ _ _ _ he]
    exact h

theorem containsKey_foldl_insert (l : List Str) (r : Record) (m : List (Str × Record))
    (k : Str) (h : containsKey m k = true) :
    containsKey (l.foldl (fun m' s => insertM m' s r) m) k = true := by
  induction l generalizing m with
  | nil => exact h
  | cons a t ih =>
    simp only [List.foldl_cons]
    exact ih _ (containsKey_insertM _ _ _ _ h)

theorem mem_foldl_insert {l : List Str} {r : Record} {m : List (Str × Record)}
    {kv : Str × Record} (h : kv ∈ l.foldl (fun m' s => insertM m' s r) m) :
    kv ∈ m ∨ (kv.1 ∈ l ∧ kv.2 = r) := by
  induction l generalizing m with
  | nil => exact Or.inl h
  | cons a t ih =>
    simp only [List.foldl_cons] at h
    rcases ih h with h' | h'
    · rcases List.mem_cons.mp h' with h'' | h''
      · right
        refine ⟨?_, ?_⟩
        · rw [h'']; exact List.mem_cons_self _ _
        · rw [h'']
      · exact Or.inl h''
    · exact Or.inr ⟨List.mem_cons_of_mem _ h'.1, h'.2⟩

end MapLemmas

section AddRecordLemmas

theorem addRecord_fail_fst {c : Converter} {r : Record}
    (h : (addRecord c r).2.isSome = true) : (addRecord c r).1 = c := by
  by_cases h1 : containsKey c.prefixMap r.pfx = true
  · unfold addRecord
    rw [if_pos h1]
  · by_cases h2 : containsKey c.uriMap r.uriPfx = true
    · unfold addRecord
      rw [if_neg h1, if_pos h2]
    · exfalso
      unfold addRecord at h
      rw [if_neg h1, if_neg h2] at h
      simp at h

theorem addRecord_isSome_iff (c : Converter) (r : Record) :
    (addRecord c r).2.isSome = true ↔
      (containsKey c.prefixMap r.pfx = true ∨ containsKey c.uriMap r.uriPfx = true) := by
  unfold addRecord
  split
  · simp [*]
  · split
    · simp [*]
    · simp_all

theorem addRecord_success (c : Converter) (r : Record)
    (h1 : containsKey c.prefixMap r.pfx = false)
    (h2 : containsKey c.uriMap r.uriPfx = false) :
    addRecord c r =
      (⟨r.pfxSynonyms.foldl (fun m s => insertM m s r) (insertM c.prefixMap r.pfx r),
        r.uriPfxSynonyms.foldl (fun m s => insertM m s r) (insertM c.uriMap r.uriPfx r),
        r.uriPfxSynonyms.foldl (fun t s => t ++ [s]) (c.trie ++ [r.uriPfx])⟩, none) := by
  unfold addRecord
  rw [if_neg (by simp [h1]), if_neg (by simp [h2])]

end AddRecordLemmas

section TrieLemmas

theorem foldl_push_map {α β : Type} (f : α → β) (l : List α) (t : List β) :
    l.foldl (fun t' s => t' ++ [f s]) t = t ++ l.map f := by
  induction l generalizing t with
  | nil => simp
  | cons a r ih => simp [ih]

theorem foldl_push (l : List Str) (t : List Str) :
    l.foldl (fun t' s => t' ++ [s]) t = t ++ l := by
  have h := foldl_push_map id l t
  simpa using h

theorem addRecord_none_not_dup {c : Converter} {r : Record}
    (h : (addRecord c r).2 = none) :
    containsKey c.prefixMap r.pfx = false ∧ containsKey c.uriMap r.uriPfx = false := by
  constructor
  · by_contra hc
    rw [Bool.not_eq_false] at hc
    unfold addRecord at h
    rw [if_pos hc] at h
    simp at h
  · by_contra hc
    rw [Bool.not_eq_false] at hc
    have h1 : containsKey c.prefixMap r.pfx = false := by
      by_contra hc1
      rw [Bool.not_eq_false] at hc1
      unfold addRecord at h
      rw [if_pos hc1] at h
      simp at h
    unfold addRecord at h
    rw [if_neg (by simp [h1]), if_pos hc] at h
    simp at h

theorem addRecord_none_parts {c : Converter} {r : Record}
    (h : (addRecord c r).2 = none) :
    (addRecord c r).1.prefixMap
        = r.pfxSynonyms.foldl (fun m s => insertM m s r) (insertM c.prefixMap r.pfx r)
    ∧ (addRecord c r).1.uriMap
        = r.uriPfxSynonyms.foldl (fun m s => insertM m s r) (insertM c.uriMap r.uriPfx r)
    ∧ (addRecord c r).1.trie = c.trie ++ (r.uriPfx :: r.uriPfxSynonyms) := by
  obtain ⟨h1, h2⟩ := addRecord_none_not_dup h
  rw [addRecord_success c r h1 h2]
  refine ⟨rfl, rfl, ?_⟩
  simp [foldl_push]

theorem runFrom_trie (ops : List Record) (c : Converter) :
    (runFrom c ops).trie = c.trie ++ regUriFrom c ops := by
  induction ops generalizing c with
  | nil => simp [runFrom, regUriFrom]
  | cons r rs ih =>
    rw [runFrom, regUriFrom]
    cases herr : (addRecord c r).2 with
    | none =>
      have hmatch : (match addRecord c r with
          | (c2, none) => (r.uriPfx :: r.uriPfxSynonyms) ++ regUriFrom c2 rs
          | (_, some _) => regUriFrom c rs)
          = (r.uriPfx :: r.uriPfxSynonyms) ++ regUriFrom (addRecord c r).1 rs := by
        rcases hp : addRecord c r with ⟨c2, err⟩
        rw [hp] at herr
        cases err with
        | none => rfl
        | some e => simp at herr
      rw [hmatch, ih]
      rw [(addRecord_none_parts herr).2.2]
      simp
    | some e =>
      have hfst : (addRecord c r).1 = c := addRecord_fail_fst (by rw [herr]; rfl)
      have hmatch : (match addRecord c r with
          | (c2, none) => (r.uriPfx :: r.uriPfxSynonyms) ++ regUriFrom c2 rs
          | (_, some _) => regUriFrom c rs) = regUriFrom c rs := by
        rcases hp : addRecord c r with ⟨c2, err⟩
        rw [hp] at herr
        cases err with
        | none => simp at herr
        | some e' => rfl
      rw [hmatch, hfst, ih]

end TrieLemmas

section Invariants

theorem mapOk_insert_syn (sel : Record → Str) (syn : Record → List Str)
    (m : List (Str × Record)) (r : Record) (hm : MapOk sel syn m) :
    MapOk sel syn ((syn r).foldl (fun m' s => insertM m' s r) (insertM m (sel r) r)) := by
  intro kv hkv
  rcases mem_foldl_insert hkv with h' | h'
  · rcases List.mem_cons.mp h' with h'' | h''
    · rw [h'']
      exact Or.inl rfl
    · exact hm kv h''
  · right
    rw [h'.2]
    exact h'.1

theorem mapOk_runFrom_pm (ops : List Record) (c : Converter)
    (h : MapOk Record.pfx Record.pfxSynonyms c.prefixMap) :
    MapOk Record.pfx Record.pfxSynonyms (runFrom c ops).prefixMap := by
  induction ops generalizing c with
  | nil => exact h
  | cons r rs ih =>
    rw [runFrom]
    apply ih
    cases herr : (addRecord c r).2 with
    | none =>
      rw [(addRecord_none_parts herr).1]
      exact mapOk_insert_syn Record.pfx Record.pfxSynonyms c.prefixMap r h
    | some e =>
      rw [addRecord_fail_fst (by rw [herr]; rfl)]
      exact h

theorem mapOk_runFrom_um (ops : List Record) (c : Converter)
    (h : MapOk Record.uriPfx Record.uriPfxSynonyms c.uriMap) :
    MapOk Record.uriPfx Record.uriPfxSynonyms (runFrom c ops).uriMap := by
  induction ops generalizing c with
  | nil => exact h
  | cons r rs ih =>
    rw [runFrom]
    apply ih
    cases herr : (addRecord c r).2 with
    | none =>
      rw [(addRecord_none_parts herr).2.1]
      exact mapOk_insert_syn Record.uriPfx Record.uriPfxSynonyms c.uriMap r h
    | some e =>
      rw [addRecord_fail_fst (by rw [herr]; rfl)]
      exact h

theorem trieKeysOk_addRecord (c : Converter) (r : Record) (h : TrieKeysOk c) :
    TrieKeysOk (addRecord c r).1 := by
  cases herr : (addRecord c r).2 with
  | some e =>
    rw [addRecord_fail_fst (by rw [herr]; rfl)]
    exact h
  | none =>
    obtain ⟨-, hum, htr⟩ := addRecord_none_parts herr
    intro p hp
    rw [hum]
    rw [htr] at hp
    rcases List.mem_append.mp hp with hp' | hp'
    · exact containsKey_foldl_insert _ _ _ _ (containsKey_insertM _ _ _ _ (h p hp'))
    · rcases List.mem_cons.mp hp' with hp'' | hp''
      · subst hp''
        apply containsKey_foldl_insert
        simp [containsKey, lookupM_insertM_self]
      · unfold containsKey
        rw [lookupM_foldl_insert_mem r _ hp'']
        rfl

theorem trieKeysOk_runFrom (ops : List Record) (c : Converter) (h : TrieKeysOk c) :
    TrieKeysOk (runFrom c ops) := by
  induction ops generalizing c with
  | nil => exact h
  | cons r rs ih => exact ih _ (trieKeysOk_addRecord _ _ h)

theorem trieKeysOk_runOps (ops : List Record) : TrieKeysOk (runOps ops) := by
  apply trieKeysOk_runFrom
  intro p hp
  simp [newConverter] at hp

end Invariants

/-- C1: for every registry (any replay of `add_record` calls from
`Converter::new()`) and every query `u`, `find_by_uri u` is "not found"
when no registered URI-prefix string is a prefix of `u`; and whenever a
registered URI-prefix string `p` (canonical or synonym) is a prefix of
`u` and is the longest such, `find_by_uri u` returns exactly the record
registered under `p` in the URI index — in particular, when one
registered URI-prefix is a strict prefix of another and `u` matches
both, the longer one is selected, so its owner is returned. -/
theorem claim1_findByUri_longest (ops : List Record) (u : Str) :
    ((∀ p ∈ regUri ops, ¬ p <+: u) → findByUri (runOps ops) u = none)
    ∧ (∀ p ∈ regUri ops, p <+: u →
        (∀ q ∈ regUri ops, q <+: u → q.length ≤ p.length) →
        ∃ r, findByUri (runOps ops) u = some r
          ∧ findByUriPfx (runOps ops) p = some r
          ∧ (p = r.uriPfx ∨ p ∈ r.uriPfxSynonyms)) := by
  have htrie : (runOps ops).trie = regUri ops := by
    rw [runOps, runFrom_trie, regUri]
    rfl
  constructor
  · intro h
    have hm : commonPrefixMatches (runOps ops).trie u = [] := by
      rw [commonPrefixMatches, htrie]
      apply List.filter_eq_nil_iff.mpr
      intro p hp hb
      exact h p hp ( List.isPrefixOf_iff_prefix.mp hb)
    rw [findByUri, hm]
    rfl
  · intro p hp hpre hmax
    have hpm : p ∈ commonPrefixMatches (runOps ops).trie u := by
      rw [commonPrefixMatches, htrie]
      exact List.mem_filter.mpr ⟨hp, List.isPrefixOf_iff_prefix.mpr hpre⟩
    cases harg : List.argmax List.length (commonPrefixMatches (runOps ops).trie u) with
    | none =>
      exfalso
      have : commonPrefixMatches (runOps ops).trie u = [] := List.argmax_eq_none.mp harg
      rw [this] at hpm
      simp at hpm
    | some m =>
      have hmem : m ∈ List.argmax List.length (commonPrefixMatches (runOps ops).trie u) := by
        rw [harg]
        rfl
      have hmfil : m ∈ commonPrefixMatches (runOps ops).trie u := List.argmax_mem hmem
      have hmtrie : m ∈ (runOps ops).trie := (List.mem_filter.mp hmfil).1
      have hmpre : m <+: u :=
        List.isPrefixOf_iff_prefix.mp (List.mem_filter.mp hmfil).2
      have hlen1 : p.length ≤ m.length := List.le_of_mem_argmax hpm hmem
      have hlen2 : m.length ≤ p.length := hmax m (htrie ▸ hmtrie) hmpre
      have hmp : m = p := by
        rcases List.prefix_or_prefix_of_prefix hmpre hpre with h' | h'
        · exact h'.eq_of_length (Nat.le_antisymm hlen2 hlen1)
        · exact (h'.eq_of_length (Nat.le_antisymm hlen1 hlen2)).symm
      have hkey : containsKey (runOps ops).uriMap p = true :=
        trieKeysOk_runOps ops p (hmp ▸ hmtrie)
      obtain ⟨r, hr⟩ := Option.isSome_iff_exists.mp hkey
      refine ⟨r, ?_, ?_, ?_⟩
      · rw [findByUri, harg, hmp]
        exact hr
      · exact hr
      · have := mapOk_runFrom_um ops newConverter (by intro kv hkv; simp [newConverter] at hkv)
        exact this (p, r) (lookupM_mem hr)

/-- Witness for C1 at the repo's concrete scenario: registered URI
prefixes `O` (record `recObo`), `OD` and `S` (record `recDoid`); the
query `OD1` matches both `O` and the longer `OD`, and resolves to
`recDoid`; the query `z` matches none and yields not-found. -/
theorem claim1_witness :
    (∃ r, findByUri convEx ['O', 'D', '1'] = some r
      ∧ findByUriPfx convEx ['O', 'D'] = some r
      ∧ (['O', 'D'] = r.uriPfx ∨ ['O', 'D'] ∈ r.uriPfxSynonyms))
    ∧ findByUri convEx ['z'] = none :=
  ⟨(claim1_findByUri_longest [recObo, recDoid] ['O', 'D', '1']).2
      ['O', 'D'] (by decide) (by decide) (by decide),
    (claim1_findByUri_longest [recObo, recDoid] ['z']).1 (by decide)⟩

section SplitStripLemmas

theorem splitColon_no_colon {l : Str} (h : ':' ∉ l) : splitColon l = [l] := by
  induction l with
  | nil => rfl
  | cons ch t ih =>
    have hch : ¬ ch = ':' := fun he => h (he ▸ List.mem_cons_self _ _)
    have ht : ':' ∉ t := fun hm => h (List.mem_cons_of_mem _ hm)
    rw [splitColon, if_neg hch, ih ht]

theorem splitColon_sandwich {a b : Str} (ha : ':' ∉ a) (hb : ':' ∉ b) :
    splitColon (a ++ ':' :: b) = [a, b] := by
  induction a with
  | nil =>
    rw [List.nil_append, splitColon, if_pos rfl, splitColon_no_colon hb]
  | cons ch t ih =>
    have hch : ¬ ch = ':' := fun he => ha (he ▸ List.mem_cons_self _ _)
    have ht : ':' ∉ t := fun hm => ha (List.mem_cons_of_mem _ hm)
    rw [List.cons_append, splitColon, if_neg hch, ih ht]

theorem stripPfx_append (p id : Str) : stripPfx p (p ++ id) = some id := by
  rw [stripPfx, if_pos ( List.isPrefixOf_iff_prefix.mpr (List.prefix_append p id))]
  rw [List.drop_left]

theorem stripPfx_of_not_pre {p s : Str} (h : ¬ p <+: s) : stripPfx p s = none := by
  rw [stripPfx, if_neg]
  intro hb
  exact h ( List.isPrefixOf_iff_prefix.mp hb)

theorem stripPfx_some_pre {p s v : Str} (h : stripPfx p s = some v) :
    p <+: s ∧ v = s.drop p.length := by
  rw [stripPfx] at h
  by_cases hb : p.isPrefixOf s
  · rw [if_pos hb] at h
    injection h with hv
    exact ⟨ List.isPrefixOf_iff_prefix.mp hb, hv.symm⟩
  · rw [if_neg hb] at h
    exact absurd h (by simp)

theorem findSome?_strip_unique {l : List Str} {us u : Str} (hmem : us ∈ l)
    (huniq : ∀ s ∈ l, s <+: u → s = us) (hus : us <+: u) :
    List.findSome? (fun s => stripPfx s u) l = some (u.drop us.length) := by
  induction l with
  | nil => simp at hmem
  | cons a t ih =>
    cases ha : stripPfx a u with
    | some v =>
      obtain ⟨hpre, hv⟩ := stripPfx_some_pre ha
      have hau : a = us := huniq a (List.mem_cons_self _ _) hpre
      rw [List.findSome?_cons, ha, hv, hau]
    | none =>
      have hne : a ≠ us := by
        intro he
        rw [he] at ha
        rw [stripPfx, if_pos ( List.isPrefixOf_iff_prefix.mpr hus)] at ha
        exact Option.noConfusion ha
      have hmem' : us ∈ t := by
        rcases List.mem_cons.mp hmem with h' | h'
        · exact absurd h'.symm hne
        · exact h'
      rw [List.findSome?_cons, ha]
      exact ih hmem' (fun s hs hp => huniq s (List.mem_cons_of_mem _ hs) hp)

end SplitStripLemmas

/-- C3: `add_record` fails with `DuplicateRecordError` exactly when the
record's canonical prefix is already a key of the prefix index or its
canonical URI prefix is already a key of the URI index (synonym
collisions never cause failure), the error carries the offending key,
and on failure the converter state — hence every observable lookup —
is exactly as before the call. -/
theorem claim3_duplicate_error (c : Converter) (r : Record) :
    ((addRecord c r).2.isSome = true
        ↔ (containsKey c.prefixMap r.pfx = true ∨ containsKey c.uriMap r.uriPfx = true))
    ∧ (containsKey c.prefixMap r.pfx = true → (addRecord c r).2 = some ⟨r.pfx⟩)
    ∧ (containsKey c.prefixMap r.pfx = false → containsKey c.uriMap r.uriPfx = true →
        (addRecord c r).2 = some ⟨r.uriPfx⟩)
    ∧ ((addRecord c r).2.isSome = true →
        (addRecord c r).1 = c
        ∧ (∀ q, findByPfx (addRecord c r).1 q = findByPfx c q)
        ∧ (∀ q, findByUriPfx (addRecord c r).1 q = findByUriPfx c q)
        ∧ (∀ q, findByUri (addRecord c r).1 q = findByUri c q)
        ∧ (∀ q, compress (addRecord c r).1 q = compress c q)
        ∧ (∀ q, expand (addRecord c r).1 q = expand c q)) := by
  refine ⟨addRecord_isSome_iff c r, ?_, ?_, ?_⟩
  · intro h1
    unfold addRecord
    rw [if_pos h1]
  · intro h1 h2
    unfold addRecord
    rw [if_neg (by simp [h1]), if_pos h2]
  · intro h
    have hst := addRecord_fail_fst h
    exact ⟨hst, fun q => by rw [hst], fun q => by rw [hst], fun q => by rw [hst],
      fun q => by rw [hst], fun q => by rw [hst]⟩

/-- Witness for C3: re-adding `recDoid` to `convEx` fails with the
duplicate prefix key `d` and leaves the state unchanged. -/
theorem claim3_witness :
    (addRecord convEx recDoid).2 = some ⟨recDoid.pfx⟩
    ∧ (addRecord convEx recDoid).1 = convEx :=
  ⟨(claim3_duplicate_error convEx recDoid).2.1 (by decide),
    ((claim3_duplicate_error convEx recDoid).2.2.2 (by decide)).1⟩

/-- C9: when both canonical keys already exist, the error carries the
prefix, because the prefix-index check runs first. -/
theorem claim9_pfx_checked_first (c : Converter) (r : Record)
    (h1 : containsKey c.prefixMap r.pfx = true)
    (_h2 : containsKey c.uriMap r.uriPfx = true) :
    (addRecord c r).2 = some ⟨r.pfx⟩ := by
  unfold addRecord
  rw [if_pos h1]

/-- Witness for C9: `recDoid`'s prefix `d` and URI prefix `OD` are both
keys of `convEx`; the reported duplicate key is the prefix `d`. -/
theorem claim9_witness : (addRecord convEx recDoid).2 = some ⟨recDoid.pfx⟩ :=
  claim9_pfx_checked_first convEx recDoid (by decide) (by decide)

/-- C4: a record with fresh canonical keys but a prefix synonym (or
URI-prefix synonym) equal to an existing key of the corresponding index
is inserted without error, and an exact lookup of that key afterwards
returns the new record, silently shadowing the earlier owner. -/
theorem claim4_synonym_overwrite (c : Converter) (r : Record) (s t : Str)
    (h1 : containsKey c.prefixMap r.pfx = false)
    (h2 : containsKey c.uriMap r.uriPfx = false) :
    ((addRecord c r).2 = none)
    ∧ (s ∈ r.pfxSynonyms → containsKey c.prefixMap s = true →
        findByPfx (addRecord c r).1 s = some r)
    ∧ (t ∈ r.uriPfxSynonyms → containsKey c.uriMap t = true →
        findByUriPfx (addRecord c r).1 t = some r) := by
  rw [addRecord_success c r h1 h2]
  refine ⟨rfl, fun hs _ => ?_, fun ht _ => ?_⟩
  · show lookupM (r.pfxSynonyms.foldl (fun m s' => insertM m s' r)
      (insertM c.prefixMap r.pfx r)) s = some r
    exact lookupM_foldl_insert_mem r _ hs
  · show lookupM (r.uriPfxSynonyms.foldl (fun m s' => insertM m s' r)
      (insertM c.uriMap r.uriPfx r)) t = some r
    exact lookupM_foldl_insert_mem r _ ht

/-- Witness for C4: adding a record whose prefix synonym `o` and URI
synonym `O` collide with `recObo`'s canonical keys succeeds, and both
keys afterwards resolve to the new record instead of `recObo`. -/
theorem claim4_witness :
    ((addRecord convEx ⟨['x'], ['X'], [['o']], [['O']]⟩).2 = none)
    ∧ findByPfx (addRecord convEx ⟨['x'], ['X'], [['o']], [['O']]⟩).1 ['o']
        = some ⟨['x'], ['X'], [['o']], [['O']]⟩
    ∧ findByUriPfx (addRecord convEx ⟨['x'], ['X'], [['o']], [['O']]⟩).1 ['O']
        = some ⟨['x'], ['X'], [['o']], [['O']]⟩ := by
  obtain ⟨ha, hb, hc⟩ := claim4_synonym_overwrite convEx
    ⟨['x'], ['X'], [['o']], [['O']]⟩ ['o'] ['O'] (by decide) (by decide)
  exact ⟨ha, hb (by decide) (by decide), hc (by decide) (by decide)⟩

/-- C5: `expand` succeeds exactly when splitting on `:` yields two parts
`[p, id]` with `p` a key of the prefix index; the result is then the
record's canonical URI prefix concatenated directly with `id`; any
other number of parts (no colon, or several colons) is not-found. -/
theorem claim5_expand_shape (c : Converter) (cu : Str) :
    (∀ p id r, splitColon cu = [p, id] → findByPfx c p = some r →
        expand c cu = some (r.uriPfx ++ id))
    ∧ (∀ p id, splitColon cu = [p, id] → findByPfx c p = none → expand c cu = none)
    ∧ ((splitColon cu).length ≠ 2 → expand c cu = none)
    ∧ ((expand c cu).isSome = true →
        ∃ p id r, splitColon cu = [p, id] ∧ findByPfx c p = some r
          ∧ expand c cu = some (r.uriPfx ++ id)) := by
  refine ⟨?_, ?_, ?_, ?_⟩
  · intro p id r hsp hf
    simp [expand, hsp, hf]
  · intro p id hsp hf
    simp [expand, hsp, hf]
  · intro hlen
    rcases hsp : splitColon cu with _ | ⟨p, _ | ⟨q, _ | ⟨w, rest⟩⟩⟩
    · simp [expand, hsp]
    · simp [expand, hsp]
    · rw [hsp] at hlen
      simp at hlen
    · simp [expand, hsp]
  · intro h
    rcases hsp : splitColon cu with _ | ⟨p, _ | ⟨q, _ | ⟨w, rest⟩⟩⟩
    · rw [expand, hsp] at h
      simp at h
    · rw [expand, hsp] at h
      simp at h
    · cases hf : findByPfx c p with
      | none => simp [expand, hsp, hf] at h
      | some r => exact ⟨p, q, r, rfl, hf, by simp [expand, hsp, hf]⟩
    · rw [expand, hsp] at h
      simp at h

/-- Witness for C5: in `convEx`, `d:1` expands to `OD1`; `x` (no colon)
and `a:b:c` (two colons) are not-found. -/
theorem claim5_witness :
    expand convEx ['d', ':', '1'] = some (recDoid.uriPfx ++ ['1'])
    ∧ expand convEx ['x'] = none
    ∧ expand convEx ['a', ':', 'b', ':', 'c'] = none :=
  ⟨(claim5_expand_shape convEx ['d', ':', '1']).1 ['d'] ['1'] recDoid
      (by decide) (by decide),
    (claim5_expand_shape convEx ['x']).2.2.1 (by decide),
    (claim5_expand_shape convEx ['a', ':', 'b', ':', 'c']).2.2.1 (by decide)⟩

/-- Counterexample for C10 as stated: a record whose canonical prefix is
the string `:` is accepted by `add_record`, so `:` is a key of the
prefix index, yet `expand (":" ++ ":")` splits into three parts and is
not-found instead of returning the record's URI prefix. -/
theorem claim10_cex :
    findByPfx (runOps [⟨[':'], ['P'], [], []⟩]) [':'] = some ⟨[':'], ['P'], [], []⟩
    ∧ expand (runOps [⟨[':'], ['P'], [], []⟩]) ([':'] ++ [':']) = none
    ∧ ¬ (expand (runOps [⟨[':'], ['P'], [], []⟩]) ([':'] ++ [':'])
          = some (⟨[':'], ['P'], [], []⟩ : Record).uriPfx) := by
  decide

/-- C10 amended: for every key `p` of the prefix index that contains no
colon, `expand (p ++ ":")` returns the mapped record's canonical URI
prefix (the empty local identifier is accepted), even though
`expand p` with no colon is not-found. -/
theorem claim10_amended (c : Converter) (p : Str) (r : Record)
    (h : findByPfx c p = some r) (hc : ':' ∉ p) :
    expand c (p ++ [':']) = some r.uriPfx ∧ expand c p = none := by
  constructor
  · have hsp : splitColon (p ++ [':']) = [p, []] :=
      splitColon_sandwich hc (by simp)
    simp [expand, hsp, h]
  · have hsp : splitColon p = [p] := splitColon_no_colon hc
    simp [expand, hsp]

/-- Witness for C10 amended: `expand "d:" = some "OD"` in `convEx`,
while `expand "d" = none`. -/
theorem claim10_witness :
    expand convEx (['d'] ++ [':']) = some recDoid.uriPfx ∧ expand convEx ['d'] = none :=
  claim10_amended convEx ['d'] recDoid (by decide) (by decide)

/-- Counterexample for C2 as stated: insert the single record with
prefix `d`, URI prefix `P` and URI-prefix synonym `S`; the URI
`S1` built from the synonym compresses to `d:1`, which expands to the
canonical `P1`, not back to `S1` — `compress` canonicalises, so the
synonym side of the round-trip fails. -/
theorem claim2_cex :
    (addRecord newConverter ⟨['d'], ['P'], [], [['S']]⟩).2 = none
    ∧ (compress (runOps [⟨['d'], ['P'], [], [['S']]⟩]) (['S'] ++ ['1'])).bind
        (fun v => expand (runOps [⟨['d'], ['P'], [], [['S']]⟩]) v)
        = some ['P', '1']
    ∧ ¬ ((compress (runOps [⟨['d'], ['P'], [], [['S']]⟩]) (['S'] ++ ['1'])).bind
        (fun v => expand (runOps [⟨['d'], ['P'], [], [['S']]⟩]) v)
        = some (['S'] ++ ['1'])) := by
  decide

/-- C2 amended: the round-trips hold for the canonical forms, whenever
the record's canonical keys actually resolve to it (no shadowing, no
longer interfering registered URI prefix) and the prefix and local id
are colon-free: `expand (compress (uri_prefix ++ id)) = uri_prefix ++ id`
and `compress (expand (prefix ++ ":" ++ id)) = prefix ++ ":" ++ id`.
The synonym variants are canonicalised instead (see the
counterexample). -/
theorem claim2_amended (c : Converter) (r : Record) (id : Str)
    (hp : findByPfx c r.pfx = some r)
    (hu : findByUri c (r.uriPfx ++ id) = some r)
    (hc1 : ':' ∉ r.pfx) (hc2 : ':' ∉ id) :
    (compress c (r.uriPfx ++ id)).bind (fun v => expand c v) = some (r.uriPfx ++ id)
    ∧ (expand c (r.pfx ++ ':' :: id)).bind (fun v => compress c v)
        = some (r.pfx ++ ':' :: id) := by
  have hcomp : compress c (r.uriPfx ++ id) = some (r.pfx ++ ':' :: id) := by
    simp [compress, hu, stripPfx_append]
  have hexp : expand c (r.pfx ++ ':' :: id) = some (r.uriPfx ++ id) := by
    simp [expand, splitColon_sandwich hc1 hc2, hp]
  constructor
  · rw [hcomp]
    simpa using hexp
  · rw [hexp]
    simpa using hcomp

/-- Witness for C2 amended: in `convEx`, `OD1` compresses to `d:1` and
back, and `d:1` expands to `OD1` and back. -/
theorem claim2_witness :
    (compress convEx (recDoid.uriPfx ++ ['1'])).bind (fun v => expand convEx v)
        = some (recDoid.uriPfx ++ ['1'])
    ∧ (expand convEx (recDoid.pfx ++ ':' :: ['1'])).bind (fun v => compress convEx v)
        = some (recDoid.pfx ++ ':' :: ['1']) :=
  claim2_amended convEx recDoid ['1'] (by decide) (by decide) (by decide) (by decide)

/-- Counterexample for C6 as stated: a record with URI prefix `a` and
URI-prefix synonym `ab`; with local id `x`, the canonical URI `ax`
compresses to `p:x` but the synonym URI `abx` compresses to `p:bx` —
not the identical CURIE, because stripping tries the canonical prefix
first and it succeeds on the synonym-built URI with a different
residue. -/
theorem claim6_cex :
    (addRecord newConverter ⟨['p'], ['a'], [], [['a', 'b']]⟩).2 = none
    ∧ compress (runOps [⟨['p'], ['a'], [], [['a', 'b']]⟩]) (['a'] ++ ['x'])
        = some ['p', ':', 'x']
    ∧ compress (runOps [⟨['p'], ['a'], [], [['a', 'b']]⟩]) (['a', 'b'] ++ ['x'])
        = some ['p', ':', 'b', 'x']
    ∧ compress (runOps [⟨['p'], ['a'], [], [['a', 'b']]⟩]) (['a', 'b'] ++ ['x'])
        ≠ compress (runOps [⟨['p'], ['a'], [], [['a', 'b']]⟩]) (['a'] ++ ['x']) := by
  decide

/-- C6 amended: expansion through a prefix synonym agrees with the
canonical expansion whenever both still resolve to the record and the
strings are colon-free; compression of a synonym-built URI agrees with
the canonical compression provided the canonical URI prefix does not
itself prefix the synonym-built URI and the used synonym is the only
registered URI-prefix synonym of the record prefixing it (otherwise the
stripped local id differs, see the counterexample). -/
theorem claim6_amended (c : Converter) (r : Record) (ps us id : Str) :
    (ps ∈ r.pfxSynonyms → findByPfx c r.pfx = some r → findByPfx c ps = some r →
      ':' ∉ r.pfx → ':' ∉ ps → ':' ∉ id →
      expand c (ps ++ ':' :: id) = expand c (r.pfx ++ ':' :: id)
      ∧ expand c (ps ++ ':' :: id) = some (r.uriPfx ++ id))
    ∧ (us ∈ r.uriPfxSynonyms → findByUri c (us ++ id) = some r →
      findByUri c (r.uriPfx ++ id) = some r →
      ¬ r.uriPfx <+: us ++ id → (∀ s ∈ r.uriPfxSynonyms, s <+: us ++ id → s = us) →
      compress c (us ++ id) = some (r.pfx ++ ':' :: id)
      ∧ compress c (r.uriPfx ++ id) = some (r.pfx ++ ':' :: id)) := by
  constructor
  · intro _hmem hp hps hc1 hc2 hc3
    have h1 : expand c (ps ++ ':' :: id) = some (r.uriPfx ++ id) := by
      simp [expand, splitColon_sandwich hc2 hc3, hps]
    have h2 : expand c (r.pfx ++ ':' :: id) = some (r.uriPfx ++ id) := by
      simp [expand, splitColon_sandwich hc1 hc3, hp]
    exact ⟨h1.trans h2.symm, h1⟩
  · intro hmem hu1 hu2 hnot huniq
    constructor
    · have hfs := findSome?_strip_unique hmem huniq (List.prefix_append us id)
      rw [List.drop_left] at hfs
      simp [compress, hu1, stripPfx_of_not_pre hnot, hfs]
    · simp [compress, hu2, stripPfx_append]

/-- Witness for C6 amended: in `convEx`, `D:1` and `d:1` expand to the
same URI `OD1`, and both `S1` (synonym URI) and `OD1` (canonical URI)
compress to the identical CURIE `d:1`. -/
theorem claim6_witness :
    (expand convEx (['D'] ++ ':' :: ['1']) = expand convEx (['d'] ++ ':' :: ['1'])
      ∧ expand convEx (['D'] ++ ':' :: ['1']) = some (recDoid.uriPfx ++ ['1']))
    ∧ (compress convEx (['S'] ++ ['1']) = some (recDoid.pfx ++ ':' :: ['1'])
      ∧ compress convEx (recDoid.uriPfx ++ ['1']) = some (recDoid.pfx ++ ':' :: ['1'])) :=
  ⟨(claim6_amended convEx recDoid ['D'] ['S'] ['1']).1 (by decide) (by decide)
      (by decide) (by decide) (by decide) (by decide),
    (claim6_amended convEx recDoid ['D'] ['S'] ['1']).2 (by decide) (by decide)
      (by decide) (by decide) (by decide)⟩

/-- C8: after any sequence of `add_record` calls (successful or failed)
starting from `Converter::new()`, every key of the prefix index is the
canonical prefix or a prefix synonym of the record it maps to, and
every key of the URI index is the canonical URI prefix or a URI-prefix
synonym of the record it maps to. -/
theorem claim8_index_coherence (ops : List Record) :
    (∀ k r, lookupM (runOps ops).prefixMap k = some r → k = r.pfx ∨ k ∈ r.pfxSynonyms)
    ∧ (∀ k r, lookupM (runOps ops).uriMap k = some r →
        k = r.uriPfx ∨ k ∈ r.uriPfxSynonyms) := by
  constructor
  · intro k r h
    have hok := mapOk_runFrom_pm ops newConverter
      (by intro kv hkv; simp [newConverter] at hkv)
    exact hok (k, r) (lookupM_mem h)
  · intro k r h
    have hok := mapOk_runFrom_um ops newConverter
      (by intro kv hkv; simp [newConverter] at hkv)
    exact hok (k, r) (lookupM_mem h)

/-- Witness for C8: the key `D` of `convEx`'s prefix index maps to
`recDoid`, of which it is a prefix synonym. -/
theorem claim8_witness : ['D'] = recDoid.pfx ∨ ['D'] ∈ recDoid.pfxSynonyms :=
  (claim8_index_coherence [recObo, recDoid]).1 ['D'] recDoid (by decide)

section Utf8Lemmas

theorem utf8EncodeCp_ne_nil (n : Nat) : utf8EncodeCp n ≠ [] := by
  unfold utf8EncodeCp
  split
  · simp
  · split
    · simp
    · split <;> simp

theorem char_valid_nat (ch : Char) :
    ch.toNat < 55296 ∨ (57343 < ch.toNat ∧ ch.toNat < 1114112) := by
  have h := ch.valid
  unfold UInt32.isValidChar Nat.isValidChar at h
  exact h

theorem utf8DecodeChar_encode (ch : Char) (rest : List Nat) :
    utf8DecodeChar (utf8EncodeCp ch.toNat ++ rest)
      = some (ch.toNat, (utf8EncodeCp ch.toNat).length) := by
  have hv := char_valid_nat ch
  set n := ch.toNat with hn
  by_cases h1 : n < 128
  · have he : utf8EncodeCp n = [n] := by
      simp only [utf8EncodeCp]
      rw [if_pos h1]
    rw [he]
    show utf8DecodeChar (n :: rest) = some (n, 1)
    simp only [utf8DecodeChar]
    rw [if_pos h1]
  · by_cases h2 : n < 2048
    · have he : utf8EncodeCp n = [192 + n / 64, 128 + n % 64] := by
        simp only [utf8EncodeCp]
        rw [if_neg h1, if_pos h2]
      rw [he]
      show utf8DecodeChar ((192 + n / 64) :: (128 + n % 64) :: rest) = some (n, 2)
      simp only [utf8DecodeChar]
      rw [if_neg (by omega), if_neg (by omega), if_pos (by omega),
        if_pos (show contB (128 + n % 64) by unfold contB; omega)]
      have harith : (192 + n / 64 - 192) * 64 + (128 + n % 64 - 128) = n := by omega
      rw [harith]
    · by_cases h3 : n < 65536
      · have he : utf8EncodeCp n = [224 + n / 4096, 128 + n / 64 % 64, 128 + n % 64] := by
          simp only [utf8EncodeCp]
          rw [if_neg h1, if_neg h2, if_pos h3]
        rw [he]
        show utf8DecodeChar
            ((224 + n / 4096) :: (128 + n / 64 % 64) :: (128 + n % 64) :: rest)
          = some (n, 3)
        simp only [utf8DecodeChar]
        rw [if_neg (by omega), if_neg (by omega), if_neg (by omega), if_pos (by omega),
          if_pos (show contB (128 + n / 64 % 64) ∧ contB (128 + n % 64)
              ∧ (224 + n / 4096 = 224 → 160 ≤ 128 + n / 64 % 64)
              ∧ (224 + n / 4096 = 237 → 128 + n / 64 % 64 < 160) by
            unfold contB
            omega)]
        have harith : (224 + n / 4096 - 224) * 4096 + (128 + n / 64 % 64 - 128) * 64
            + (128 + n % 64 - 128) = n := by omega
        rw [harith]
      · have he : utf8EncodeCp n
            = [240 + n / 262144, 128 + n / 4096 % 64, 128 + n / 64 % 64, 128 + n % 64] := by
          simp only [utf8EncodeCp]
          rw [if_neg h1, if_neg h2, if_neg h3]
        rw [he]
        show utf8DecodeChar ((240 + n / 262144) :: (128 + n / 4096 % 64)
            :: (128 + n / 64 % 64) :: (128 + n % 64) :: rest) = some (n, 4)
        simp only [utf8DecodeChar]
        rw [if_neg (by omega), if_neg (by omega), if_neg (by omega), if_neg (by omega),
          if_pos (by omega),
          if_pos (show contB (128 + n / 4096 % 64) ∧ contB (128 + n / 64 % 64)
              ∧ contB (128 + n % 64)
              ∧ (240 + n / 262144 = 240 → 144 ≤ 128 + n / 4096 % 64)
              ∧ (240 + n / 262144 = 244 → 128 + n / 4096 % 64 < 144) by
            unfold contB
            omega)]
        have harith : (240 + n / 262144 - 240) * 262144 + (128 + n / 4096 % 64 - 128) * 4096
            + (128 + n / 64 % 64 - 128) * 64 + (128 + n % 64 - 128) = n := by omega
        rw [harith]

theorem utf8DecodeList_encode (s : Str) :
    ∀ fuel : Nat, (encodeStr s).length ≤ fuel →
      utf8DecodeList fuel (encodeStr s) = some s := by
  induction s with
  | nil =>
    intro fuel _
    cases fuel <;> rfl
  | cons ch cs ih =>
    intro fuel hf
    rcases he : utf8EncodeCp ch.toNat with _ | ⟨b, bs⟩
    · exact absurd he (utf8EncodeCp_ne_nil _)
    cases fuel with
    | zero =>
      exfalso
      rw [encodeStr, he] at hf
      simp at hf
    | succ f =>
      rw [encodeStr, he, List.cons_append]
      simp only [utf8DecodeList]
      have hdec := utf8DecodeChar_encode ch (encodeStr cs)
      rw [he, List.cons_append] at hdec
      rw [hdec]
      have hdrop : (b :: (bs ++ encodeStr cs)).drop (b :: bs).length = encodeStr cs := by
        rw [← List.cons_append, List.drop_left]
      have hfl : (encodeStr cs).length ≤ f := by
        rw [encodeStr, he] at hf
        simp only [List.length_append, List.length_cons] at hf
        omega
      simp [hdrop, ih f hfl, Char.ofNat_toNat]

theorem utf8Decode_encode (s : Str) : utf8Decode (encodeStr s) = some s :=
  utf8DecodeList_encode s _ (Nat.le_refl _)

theorem addRecordB_fail_fst {c : ConverterB} {r : Record}
    (h : (addRecordB c r).2.isSome = true) : (addRecordB c r).1 = c := by
  by_cases h1 : containsKey c.prefixMap r.pfx = true
  · unfold addRecordB
    rw [if_pos h1]
  · by_cases h2 : containsKey c.uriMap r.uriPfx = true
    · unfold addRecordB
      rw [if_neg h1, if_pos h2]
    · exfalso
      unfold addRecordB at h
      rw [if_neg h1, if_neg h2] at h
      simp at h

theorem addRecordB_none_trie {c : ConverterB} {r : Record}
    (h : (addRecordB c r).2 = none) :
    (addRecordB c r).1.trieB
      = c.trieB ++ (encodeStr r.uriPfx :: r.uriPfxSynonyms.map encodeStr) := by
  have h1 : containsKey c.prefixMap r.pfx = false := by
    by_contra hc
    rw [Bool.not_eq_false] at hc
    unfold addRecordB at h
    rw [if_pos hc] at h
    simp at h
  have h2 : containsKey c.uriMap r.uriPfx = false := by
    by_contra hc
    rw [Bool.not_eq_false] at hc
    unfold addRecordB at h
    rw [if_neg (by simp [h1]), if_pos hc] at h
    simp at h
  unfold addRecordB
  rw [if_neg (by simp [h1]), if_neg (by simp [h2])]
  show r.uriPfxSynonyms.foldl (fun t s => t ++ [encodeStr s]) (c.trieB ++ [encodeStr r.uriPfx])
    = c.trieB ++ (encodeStr r.uriPfx :: r.uriPfxSynonyms.map encodeStr)
  rw [foldl_push_map encodeStr]
  simp

theorem trieBEnc_runFromB (ops : List Record) (c : ConverterB)
    (h : ∀ bs ∈ c.trieB, ∃ s, bs = encodeStr s) :
    ∀ bs ∈ (runFromB c ops).trieB, ∃ s, bs = encodeStr s := by
  induction ops generalizing c with
  | nil => exact h
  | cons r rs ih =>
    rw [runFromB]
    apply ih
    cases herr : (addRecordB c r).2 with
    | some e =>
      rw [addRecordB_fail_fst (by rw [herr]; rfl)]
      exact h
    | none =>
      rw [addRecordB_none_trie herr]
      intro bs hbs
      rcases List.mem_append.mp hbs with hb | hb
      · exact h bs hb
      · rcases List.mem_cons.mp hb with hb' | hb'
        · exact ⟨r.uriPfx, hb'⟩
        · obtain ⟨s, _, hs⟩ := List.mem_map.mp hb'
          exact ⟨s, hs.symm⟩

theorem trieBEnc_runOpsB (ops : List Record) :
    ∀ bs ∈ (runOpsB ops).trieB, ∃ s, bs = encodeStr s := by
  apply trieBEnc_runFromB
  intro bs hbs
  simp [newConverterB] at hbs

end Utf8Lemmas

/-- C7: in the byte-level model of `find_by_uri`, if the longest trie
match fails UTF-8 decoding then the result is not-found (never a
crash); and for any registry built only through `add_record` this
branch is unreachable: every byte string selected from the trie decodes
successfully, because every trie entry is the UTF-8 encoding of a
string pushed by `add_record` (a canonical URI prefix or a URI-prefix
synonym). -/
theorem claim7_utf8_guard :
    (∀ (c : ConverterB) (u : Str) (bs : List Nat),
        List.argmax List.length (c.trieB.filter (fun b => b.isPrefixOf (encodeStr u)))
          = some bs →
        utf8Decode bs = none → findByUriB c u = none)
    ∧ (∀ (ops : List Record) (u : Str) (bs : List Nat),
        List.argmax List.length
            ((runOpsB ops).trieB.filter (fun b => b.isPrefixOf (encodeStr u)))
          = some bs →
        (utf8Decode bs).isSome = true) := by
  constructor
  · intro c u bs h1 h2
    rw [findByUriB, h1]
    simp [h2]
  · intro ops u bs h1
    have hmem : bs ∈ List.argmax List.length
        ((runOpsB ops).trieB.filter (fun b => b.isPrefixOf (encodeStr u))) := by
      rw [h1]
      rfl
    have hbs : bs ∈ (runOpsB ops).trieB := (List.mem_filter.mp (List.argmax_mem hmem)).1
    obtain ⟨s, hs⟩ := trieBEnc_runOpsB ops bs hbs
    rw [hs, utf8Decode_encode]
    rfl

/-- Witness for C7: a malformed trie containing the lone byte `0xC3` (a
truncated two-byte sequence, a byte-prefix of the encoding of `é`)
makes `find_by_uri` return not-found; and in the registry built from
`recObo` the longest match for the query `Ox` decodes successfully. -/
theorem claim7_witness :
    findByUriB ⟨[], [], [[195]]⟩ ['é'] = none
    ∧ (utf8Decode (encodeStr ['O'])).isSome = true :=
  ⟨claim7_utf8_guard.1 ⟨[], [], [[195]]⟩ ['é'] [195] (by decide) (by decide),
    claim7_utf8_guard.2 [recObo] ['O', 'x'] (encodeStr ['O']) (by decide)⟩
